import Mathlib

/-!
Verification of the music-status README updater (src/index.ts).

Documents and rendered snippets are modelled as `List Char`; machine clocks
and epoch timestamps as `Int` (JS numbers hold exact integers in the ranges
involved).  The JS regex `/(<span[^>]*data-music[^>]*>)[\s\S]*?(<\/span>)/i`
is embedded by its leftmost-match semantics, and `String.replace`'s
substitution of `$`-patterns in the replacement template is embedded by the
ECMAScript GetSubstitution rules.  `new Date(...).getTime()` (ISO parsing)
and `Number(...)` are taken as parameters of the respective functions, since
their internals are not exercised by the code under verification.
-/

set_option maxHeartbeats 1000000

/-- Characters of a string literal. -/
def strL (s : String) : List Char := s.data

/-- Backquote character (code 96), used by the JS replacement-template syntax. -/
def btick : Char := Char.ofNat 96

/-- Single-quote character (code 39), used by the JS replacement-template syntax. -/
def squote : Char := Char.ofNat 39

/-- Case-insensitive character comparison: ASCII folding, which is what the
regex `i` flag amounts to on the ASCII pattern characters involved. -/
def ciEq (a b : Char) : Bool := a.toLower == b.toLower

/-- Case-insensitive test that `p` occurs at the head of `s`. -/
def ciStartsWith : List Char → List Char → Bool
  | [], _ => true
  | _ :: _, [] => false
  | p :: ps, c :: cs => ciEq p c && ciStartsWith ps cs

/-- Case-insensitive substring test. -/
def ciContains (p : List Char) : List Char → Bool
  | [] => ciStartsWith p []
  | c :: cs => ciStartsWith p (c :: cs) || ciContains p cs

/-- Splits a list at the first occurrence of the character `>`. -/
def splitGt : List Char → Option (List Char × List Char)
  | [] => none
  | c :: cs =>
    if c = '>' then some ([], cs)
    else (splitGt cs).map (fun p => (c :: p.1, p.2))

/-- First exact occurrence of `p` in a list, returned as the parts strictly
before and strictly after it (the semantics of `String.prototype.replace`
with a string pattern, and of `String.prototype.includes`). -/
def splitFirst (p : List Char) : List Char → Option (List Char × List Char)
  | [] => if p = [] then some ([], []) else none
  | c :: cs =>
    if p.isPrefixOf (c :: cs) then some ([], (c :: cs).drop p.length)
    else (splitFirst p cs).map (fun q => (c :: q.1, q.2))

/-- Opening-tag literal of the regex pattern. -/
def spanLit : List Char := strL "<span"

/-- Attribute literal of the regex pattern. -/
def dmLit : List Char := strL "data-music"

/-- Closing-tag literal of the regex pattern, also the closing marker emitted
on the placeholder upgrade path. -/
def spanCloseTag : List Char := strL "</span>"

/-- Opening marker emitted on the placeholder upgrade path. -/
def spanOpenTag : List Char := strL "<span data-music>"

/-- Match of the opener `<span[^>]*data-music[^>]*>` at the head of `s`.
Both `[^>]*` pieces stay strictly before the first `>` after `<span`, so the
opener matches exactly when the segment up to that first `>` contains
`data-music`, and its extent always ends at that `>`.  Returns the matched
opener text and the remainder of the input. -/
def openerAt (s : List Char) : Option (List Char × List Char) :=
  if ciStartsWith spanLit s then
    (splitGt (s.drop 5)).bind (fun p =>
      if ciContains dmLit p.1 then some (s.take 5 ++ p.1 ++ ['>'], p.2) else none)
  else none

/-- First case-insensitive occurrence of `</span>` (the lazy `[\s\S]*?`
followed by the closing group): parts before it, the matched closer text,
and the remainder. -/
def findCloser : List Char → Option (List Char × List Char × List Char)
  | [] => none
  | c :: cs =>
    if ciStartsWith spanCloseTag (c :: cs) then
      some ([], (c :: cs).take 7, (c :: cs).drop 7)
    else (findCloser cs).map (fun t => (c :: t.1, t.2.1, t.2.2))

/-- Decomposition of a document by the leftmost match of the update-zone
regex: text before the match, matched opener (group 1), lazy middle,
matched closer (group 2), text after. -/
structure SpanMatch where
  pre : List Char
  op : List Char
  mid : List Char
  cl : List Char
  post : List Char
deriving DecidableEq, Repr

/-- Leftmost match of `/(<span[^>]*data-music[^>]*>)[\s\S]*?(<\/span>)/i`:
the scan advances one character at a time; at each position the opener must
match and a closer must occur somewhere after it. -/
def findSpanMatch : List Char → Option SpanMatch
  | [] => none
  | c :: cs =>
    ((openerAt (c :: cs)).bind (fun pr =>
        (findCloser pr.2).map (fun t => ⟨[], pr.1, t.1, t.2.1, t.2.2⟩))) <|>
      (findSpanMatch cs).map (fun m => { m with pre := c :: m.pre })

/-- Digit lookahead used by the capture-reference substitution rules. -/
def digitNext : List Char → Bool
  | d :: _ => d.isDigit
  | [] => false

/-- ECMAScript GetSubstitution applied to a replacement template: `$$`, `$&`,
backquote and quote forms, `$n`/`$nn` capture references, with everything
else copied verbatim.  A two-digit reference whose index exceeds the capture
count falls back to the one-digit reference (the second digit is then an
ordinary character); references that are still out of range stay literal. -/
def getSubst (matched before after : List Char) (caps : List (List Char)) :
    List Char → List Char
  | [] => []
  | c :: t =>
    if c = '$' then
      match t with
      | [] => ['$']
      | d :: t1 =>
        if d = '$' then '$' :: getSubst matched before after caps t1
        else if d = '&' then matched ++ getSubst matched before after caps t1
        else if d = btick then before ++ getSubst matched before after caps t1
        else if d = squote then after ++ getSubst matched before after caps t1
        else if d.isDigit then
          if digitNext t1 then
            match t1 with
            | d2 :: t2 =>
              if caps.length < 10 * (d.toNat - 48) + (d2.toNat - 48) ∧
                  1 ≤ d.toNat - 48 ∧ d.toNat - 48 ≤ caps.length then
                caps.getD (d.toNat - 49) [] ++ d2 ::
                  getSubst matched before after caps t2
              else if 1 ≤ 10 * (d.toNat - 48) + (d2.toNat - 48) ∧
                  10 * (d.toNat - 48) + (d2.toNat - 48) ≤ caps.length then
                caps.getD (10 * (d.toNat - 48) + (d2.toNat - 48) - 1) [] ++
                  getSubst matched before after caps t2
              else '$' :: d :: d2 :: getSubst matched before after caps t2
            | [] => []
          else if 1 ≤ d.toNat - 48 ∧ d.toNat - 48 ≤ caps.length then
            caps.getD (d.toNat - 49) [] ++ getSubst matched before after caps t1
          else '$' :: d :: getSubst matched before after caps t1
        else '$' :: d :: getSubst matched before after caps t1
    else c :: getSubst matched before after caps t

/-- Core of `updateReadme`: the README content after the textual patch, or
`none` when neither a tagged region nor the placeholder is present.  The
regex branch replaces the leftmost match with the template
`$1<formatted>$2`; the fallback replaces the first occurrence of the
placeholder string with `<span data-music><formatted></span>`; both go
through JS replacement-template substitution. -/
def computeNext (ph F s : List Char) : Option (List Char) :=
  ((findSpanMatch s).map (fun m =>
      m.pre ++
        getSubst (m.op ++ m.mid ++ m.cl) m.pre m.post [m.op, m.cl]
          ('$' :: '1' :: (F ++ ['$', '2'])) ++ m.post)) <|>
    ((splitFirst ph s).map (fun q =>
      q.1 ++ getSubst ph q.1 q.2 [] (spanOpenTag ++ F ++ spanCloseTag) ++ q.2))

/-- Normalized status produced each poll (`TrackInfo` in the source). -/
structure TrackInfo where
  title : List Char
  artist : List Char
  album : Option (List Char)
  albumArt : Option (List Char)
  nowPlaying : Bool
  playedAt : Int
deriving DecidableEq, Repr

/-- Persistent cache record (`CacheEntry` in the source). -/
structure CacheEntry where
  title : List Char
  artist : List Char
  album : Option (List Char)
  albumArt : Option (List Char)
  nowPlaying : Bool
  lastUpdatedIso : String
deriving DecidableEq, Repr

/-- JS truthiness of an optional string: `undefined` and the empty string
are falsy. -/
def truthy : Option (List Char) → Bool
  | none => false
  | some s => !s.isEmpty

/-- Relative-time label (`getTimeAgo` in the source); `now` and `ts` are
epoch milliseconds and `Math.floor` is floor division. -/
def getTimeAgo (now ts : Int) : List Char :=
  let seconds := (now - ts).fdiv 1000
  if seconds < 60 then strL "just now"
  else if seconds < 3600 then (toString (seconds.fdiv 60)).data ++ strL " minutes ago"
  else if seconds < 86400 then (toString (seconds.fdiv 3600)).data ++ strL " hours ago"
  else (toString (seconds.fdiv 86400)).data ++ strL " days ago"

/-- Snippet renderer (`formatTrack` in the source); `now` is the clock read
by `getTimeAgo` at render time. -/
def formatTrack (now : Int) (t : TrackInfo) : List Char :=
  let timeAgo := getTimeAgo now t.playedAt
  if truthy t.albumArt then
    let lines := [strL "<strong>" ++ t.title ++ strL "</strong>", strL "by " ++ t.artist]
    let lines := if truthy t.album then lines ++ [strL "from " ++ t.album.getD []] else lines
    let lines := lines ++ [[]]
    let lines := lines ++ [if t.nowPlaying then strL "<em>now playing</em>" else timeAgo]
    let info := List.intercalate (strL "<br/>") lines
    strL "<img src=\"" ++ t.albumArt.getD [] ++
      strL "\" alt=\"\" width=\"128\" height=\"128\" align=\"left\" /><samp>" ++
      info ++ strL "</samp>"
  else
    strL "<samp><strong>" ++ t.title ++ strL "</strong><br/>by " ++ t.artist ++
      strL "</samp>"

/-- Change decision engine (`shouldUpdate` in the source).  `parseDate`
stands for `new Date(iso).getTime()`, with `none` for `NaN`;
`now` is `Date.now()` and `ttl` is `config.cacheTtlMs`. -/
def shouldUpdate (parseDate : String → Option Int) (now ttl : Int)
    (track : TrackInfo) (cache : Option CacheEntry) : Bool :=
  match cache with
  | none => true
  | some c =>
    if c.title ≠ track.title ∨ c.artist ≠ track.artist ∨ c.album ≠ track.album ∨
        c.albumArt ≠ track.albumArt ∨ c.nowPlaying ≠ track.nowPlaying then true
    else
      match parseDate c.lastUpdatedIso with
      | none => true
      | some last => decide (now - last > ttl)

/-- Remote document state as obtained from the GET: decoded content plus the
revision token (`sha`). -/
structure RemoteDoc where
  content : List Char
  sha : String
deriving DecidableEq, Repr

/-- Outcome of one `updateReadme` call, after a successful GET.  `noTarget`
and `noChange` return `false` with no PUT issued; `putRejected` records the
PUT that the host refused, after which the function throws; `written`
records the accepted PUT. -/
inductive PatchResult where
  | noTarget
  | noChange
  | putRejected (sha : String)
  | written (sha : String) (newContent : List Char)
deriving DecidableEq, Repr

/-- Revision tokens carried by the PUT requests an outcome issued. -/
def putsOf : PatchResult → List String
  | .noTarget => []
  | .noChange => []
  | .putRejected s => [s]
  | .written s _ => [s]

/-- Document patcher (`updateReadme` in the source), modelled from the point
where the GET succeeded with document state `doc`; `putOk` is whether the
host accepts the conditional PUT. -/
def updateReadme (ph : List Char) (track : TrackInfo) (now : Int)
    (doc : RemoteDoc) (putOk : Bool) : PatchResult :=
  let formatted := formatTrack now track
  match computeNext ph formatted doc.content with
  | none => .noTarget
  | some next =>
    if next = doc.content then .noChange
    else if putOk then .written doc.sha next
    else .putRejected doc.sha

/-- Cache record written by `saveCache` after a confirmed write; `nowIso` is
`new Date().toISOString()`. -/
def saveCacheEntry (track : TrackInfo) (nowIso : String) : CacheEntry :=
  ⟨track.title, track.artist, track.album, track.albumArt, track.nowPlaying, nowIso⟩

/-- Result of one poll cycle: cache after the cycle, patch outcome if a
patch was attempted, and whether the cycle ended in a thrown error. -/
structure TickResult where
  cache : Option CacheEntry
  patch : Option PatchResult
  failed : Bool
deriving DecidableEq, Repr

/-- One poll cycle (`tick` in the source), from a fetched status `track?`
(`none` when the provider returned no track record). The cache is rewritten
only after `updateReadme` reports a confirmed successful write. -/
def tick (parseDate : String → Option Int) (ph : List Char) (now : Int)
    (nowIso : String) (ttl : Int) (track? : Option TrackInfo)
    (cache : Option CacheEntry) (doc : RemoteDoc) (putOk : Bool) : TickResult :=
  match track? with
  | none => ⟨cache, none, false⟩
  | some track =>
    if shouldUpdate parseDate now ttl track cache then
      match updateReadme ph track now doc putOk with
      | .written s next => ⟨some (saveCacheEntry track nowIso), some (.written s next), false⟩
      | .putRejected s => ⟨cache, some (.putRejected s), true⟩
      | r => ⟨cache, some r, false⟩
    else ⟨cache, none, false⟩

/-- One image variant of the provider payload (`#text` and `size`). -/
structure LastFmImage where
  text : Option (List Char)
  size : Option (List Char)
deriving DecidableEq, Repr

/-- Played-at record of the provider payload (`date`, with `uts` seconds). -/
structure LastFmDate where
  uts : Option (List Char)
deriving DecidableEq, Repr

/-- Attribute record of the provider payload (`@attr`). -/
structure LastFmAttr where
  nowplaying : Option (List Char)
deriving DecidableEq, Repr

/-- Most-recent-track record of the provider payload. -/
structure LastFmTrack where
  name : Option (List Char)
  artistText : Option (List Char)
  albumText : Option (List Char)
  image : Option (List LastFmImage)
  date : Option LastFmDate
  attr : Option LastFmAttr
deriving DecidableEq, Repr

/-- JS `a || b` on optional strings: falsy left operands (absent or empty)
select the right operand. -/
def jsOr (a b : Option (List Char)) : Option (List Char) :=
  match a with
  | some s => if s.isEmpty then b else some s
  | none => b

/-- Status normalization (`fetchRecentTrack` in the source), from a decoded
track record.  `parseNum` stands for JS `Number(...)` on the `uts` string and
`now` is `Date.now()` at fetch time. -/
def fetchRecentTrack (parseNum : List Char → Int) (now : Int)
    (recent : LastFmTrack) : TrackInfo :=
  let images := recent.image.getD []
  let albumArt :=
    jsOr (jsOr ((images.find? (fun i => i.size == some (strL "extralarge"))).bind (·.text))
               ((images.find? (fun i => i.size == some (strL "large"))).bind (·.text)))
         ((images.find? (fun i => i.size == some (strL "medium"))).bind (·.text))
  let nowPlaying := (recent.attr.bind (·.nowplaying)) == some (strL "true")
  let uts :=
    match recent.date.bind (·.uts) with
    | some s => if s.isEmpty then now else parseNum s * 1000
    | none => now
  { title := recent.name.getD (strL "Unknown track")
    artist := recent.artistText.getD (strL "Unknown artist")
    album := recent.albumText
    albumArt := albumArt
    nowPlaying := nowPlaying
    playedAt := uts }

/-! ### Basic lemmas about the scanning primitives -/

theorem ciStartsWith_length_le : ∀ {p s : List Char}, ciStartsWith p s = true →
    p.length ≤ s.length
  | [], _, _ => Nat.zero_le _
  | _ :: _, [], h => by simp [ciStartsWith] at h
  | _ :: ps, _ :: cs, h => by
    simp only [ciStartsWith, Bool.and_eq_true] at h
    simpa using ciStartsWith_length_le (p := ps) (s := cs) h.2

theorem ciStartsWith_append_split : ∀ (F : List Char) (p rest : List Char),
    ciStartsWith p (F ++ rest) =
      (ciStartsWith (p.take F.length) F && ciStartsWith (p.drop F.length) rest)
  | [], p, rest => by simp [ciStartsWith]
  | f :: fs, [], rest => by simp [ciStartsWith]
  | f :: fs, q :: qs, rest => by
    simp only [List.cons_append, ciStartsWith, List.length_cons, List.take_succ_cons,
      List.drop_succ_cons, Bool.and_assoc, List.append_eq]
    rw [ciStartsWith_append_split fs qs rest]

theorem ciStartsWith_append_left {p F : List Char} (h : p.length ≤ F.length)
    (X : List Char) : ciStartsWith p (F ++ X) = ciStartsWith p F := by
  rw [ciStartsWith_append_split, List.take_of_length_le h, List.drop_of_length_le h]
  cases hF : ciStartsWith p F <;> simp [ciStartsWith, hF]

theorem ciStartsWith_extend {p F : List Char} (h : ciStartsWith p F = true)
    (X : List Char) : ciStartsWith p (F ++ X) = true := by
  rw [ciStartsWith_append_left (ciStartsWith_length_le h)]; exact h

theorem ciContains_nil_pat (s : List Char) : ciContains [] s = true := by
  induction s with
  | nil => rfl
  | cons c cs ih => simp [ciContains, ciStartsWith]

theorem ciContains_of_ciStartsWith {p s : List Char} (h : ciStartsWith p s = true) :
    ciContains p s = true := by
  cases s with
  | nil => simpa [ciContains] using h
  | cons c cs => simp [ciContains, h]

theorem ciContains_append_right {p B : List Char} (A : List Char)
    (h : ciContains p B = true) : ciContains p (A ++ B) = true := by
  induction A with
  | nil => simpa
  | cons a as ih => simp [ciContains, ih]

theorem ciContains_append_left {p : List Char} : ∀ (A C : List Char),
    ciContains p A = true → ciContains p (A ++ C) = true := by
  intro A
  induction A with
  | nil =>
    intro C h
    have hp : p = [] := by
      cases p with
      | nil => rfl
      | cons q qs => simp [ciContains, ciStartsWith] at h
    subst hp; exact ciContains_nil_pat _
  | cons a as ih =>
    intro C h
    simp only [ciContains, Bool.or_eq_true] at h
    rcases h with h | h
    · simpa [ciContains] using Or.inl (ciStartsWith_extend h C)
    · simpa [ciContains] using Or.inr (ih C h)

theorem ciContains_infix {p B : List Char} (A C : List Char)
    (h : ciContains p B = true) : ciContains p (A ++ B ++ C) = true := by
  rw [List.append_assoc]
  exact ciContains_append_right A (ciContains_append_left B C h)

theorem ciContains_false_tail {p c cs} (h : ciContains p (c :: cs) = false) :
    ciContains p cs = false := by
  simp only [ciContains, Bool.or_eq_false_iff] at h
  exact h.2

theorem splitGt_eq : ∀ {s seg rest : List Char}, splitGt s = some (seg, rest) →
    s = seg ++ '>' :: rest ∧ '>' ∉ seg := by
  intro s
  induction s with
  | nil => intro seg rest h; simp [splitGt] at h
  | cons c cs ih =>
    intro seg rest h
    by_cases hc : c = '>'
    · subst hc
      rw [splitGt, if_pos rfl] at h
      simp only [Option.some.injEq, Prod.mk.injEq] at h
      obtain ⟨rfl, rfl⟩ := h
      exact ⟨rfl, by simp⟩
    · rw [splitGt, if_neg hc] at h
      simp only [Option.map_eq_some'] at h
      obtain ⟨⟨seg', rest'⟩, hrec, heq⟩ := h
      obtain ⟨h1, h2⟩ := ih hrec
      simp only [Prod.mk.injEq] at heq
      obtain ⟨h3, h4⟩ := heq
      subst h3; subst h4
      constructor
      · simp [h1]
      · simp only [List.mem_cons, not_or]
        exact ⟨fun h => hc h.symm, h2⟩

theorem splitGt_mk : ∀ {seg : List Char}, '>' ∉ seg → ∀ (rest : List Char),
    splitGt (seg ++ '>' :: rest) = some (seg, rest) := by
  intro seg
  induction seg with
  | nil => intro _ rest; simp [splitGt]
  | cons c cs ih =>
    intro h rest
    simp only [List.mem_cons, not_or] at h
    have hc : ¬c = '>' := fun hh => h.1 hh.symm
    simp [splitGt, hc, ih h.2 rest]

theorem splitGt_isSome {s : List Char} (h : '>' ∈ s) : (splitGt s).isSome = true := by
  induction s with
  | nil => simp at h
  | cons c cs ih =>
    by_cases hc : c = '>'
    · subst hc; simp [splitGt]
    · simp only [List.mem_cons] at h
      rcases h with h | h
      · exact absurd h.symm hc
      · simp only [splitGt, if_neg hc]
        obtain ⟨⟨seg, rest⟩, hp⟩ := Option.isSome_iff_exists.mp (ih h)
        simp [hp]

theorem splitFirst_eq : ∀ {s : List Char} {p pre post : List Char},
    splitFirst p s = some (pre, post) → s = pre ++ p ++ post := by
  intro s
  induction s with
  | nil =>
    intro p pre post h
    by_cases hp : p = ([] : List Char) <;> simp [splitFirst, hp] at h
    obtain ⟨h1, h2⟩ := h
    subst h1; subst h2; simp [hp]
  | cons c cs ih =>
    intro p pre post h
    by_cases hp : p.isPrefixOf (c :: cs)
    · simp only [splitFirst, if_pos hp, Option.some.injEq, Prod.mk.injEq] at h
      obtain ⟨h1, h2⟩ := h
      subst h1; subst h2
      obtain ⟨t, ht⟩ := List.isPrefixOf_iff_prefix.mp hp
      rw [← ht]
      simp [List.drop_left]
    · simp only [splitFirst, if_neg hp, Option.map_eq_some'] at h
      obtain ⟨⟨pre', post'⟩, hrec, heq⟩ := h
      simp only [Prod.mk.injEq] at heq
      obtain ⟨h1, h2⟩ := heq
      subst h1; subst h2
      simp [ih hrec]

/-! ### Structure of opener and closer matches -/

theorem ciStartsWith_append_cases {p B rest : List Char}
    (h : ciStartsWith p (B ++ rest) = true) :
    (p.length ≤ B.length ∧ ciStartsWith p B = true) ∨
      (B.length < p.length ∧ ciStartsWith (p.drop B.length) rest = true) := by
  rw [ciStartsWith_append_split B p rest, Bool.and_eq_true] at h
  obtain ⟨h1, h2⟩ := h
  rcases le_or_lt p.length B.length with hle | hlt
  · left
    refine ⟨hle, ?_⟩
    rwa [List.take_of_length_le hle] at h1
  · exact Or.inr ⟨hlt, h2⟩

theorem ciStartsWith_all_ciEq : ∀ {p s : List Char}, ciStartsWith p s = true →
    s.length ≤ p.length → ∀ c ∈ s, ∃ x ∈ p, ciEq x c = true
  | _, [], _, _, _, hc => by simp at hc
  | [], _ :: _, _, hl, _, _ => by simp at hl
  | q :: qs, c :: cs, h, hl, e, he => by
    rw [ciStartsWith, Bool.and_eq_true] at h
    simp only [List.mem_cons] at he
    rcases he with rfl | he
    · exact ⟨q, List.mem_cons_self q qs, h.1⟩
    · obtain ⟨x, hx, hxe⟩ :=
        ciStartsWith_all_ciEq h.2 (by simp only [List.length_cons] at hl; omega) e he
      exact ⟨x, List.mem_cons_of_mem q hx, hxe⟩

theorem gt_not_mem_of_spanLit {a5 : List Char} (hsw : ciStartsWith spanLit a5 = true)
    (h5 : a5.length = 5) : '>' ∉ a5 := by
  intro hmem
  obtain ⟨x, hx, hxe⟩ := ciStartsWith_all_ciEq hsw (by rw [h5]; decide) '>' hmem
  simp only [spanLit, strL] at hx
  have hx' : x = '<' ∨ x = 's' ∨ x = 'p' ∨ x = 'a' ∨ x = 'n' := by
    simpa using hx
  rcases hx' with rfl | rfl | rfl | rfl | rfl <;> exact absurd hxe (by decide)

theorem first_marker_cases : ∀ (X : List Char) (A B C : List Char),
    X ++ '>' :: B = A ++ '>' :: C → '>' ∉ X →
    (X = A ∧ B = C) ∨ ∃ D, B = D ++ '>' :: C := by
  intro X
  induction X with
  | nil =>
    intro A B C h hn
    cases A with
    | nil =>
      simp only [List.nil_append, List.cons.injEq] at h
      exact Or.inl ⟨rfl, h.2⟩
    | cons a A' =>
      simp only [List.nil_append, List.cons_append, List.cons.injEq] at h
      exact Or.inr ⟨A', h.2⟩
  | cons x X' ih =>
    intro A B C h hn
    simp only [List.mem_cons, not_or] at hn
    cases A with
    | nil =>
      simp only [List.cons_append, List.nil_append, List.cons.injEq] at h
      exact absurd h.1.symm hn.1
    | cons a A' =>
      simp only [List.cons_append, List.cons.injEq] at h
      rcases ih A' B C h.2 hn.2 with ⟨h1, h2⟩ | ⟨D, hD⟩
      · exact Or.inl ⟨by rw [h.1, h1], h2⟩
      · exact Or.inr ⟨D, hD⟩

theorem openerAt_eq {s op rest : List Char} (h : openerAt s = some (op, rest)) :
    ∃ a5 seg, op = a5 ++ seg ++ ['>'] ∧ a5.length = 5 ∧
      ciStartsWith spanLit a5 = true ∧ '>' ∉ seg ∧ ciContains dmLit seg = true ∧
      s = op ++ rest := by
  unfold openerAt at h
  by_cases h1 : ciStartsWith spanLit s = true
  case neg => simp [h1] at h
  rw [if_pos h1] at h
  cases hsg : splitGt (s.drop 5) with
  | none => rw [hsg] at h; exact absurd h (by simp)
  | some p =>
    obtain ⟨seg, rest'⟩ := p
    rw [hsg] at h
    simp only [Option.some_bind] at h
    by_cases hdm : ciContains dmLit seg = true
    case neg => simp [hdm] at h
    rw [if_pos hdm] at h
    simp only [Option.some.injEq, Prod.mk.injEq] at h
    obtain ⟨hop, hrest⟩ := h
    subst hrest
    obtain ⟨hdecomp, hgt⟩ := splitGt_eq hsg
    have hlen5 : 5 ≤ s.length := by
      have := ciStartsWith_length_le h1
      simpa [spanLit, strL] using this
    have htk : (s.take 5).length = 5 := by
      simp [List.length_take, Nat.min_eq_left hlen5]
    have hsplit : s = s.take 5 ++ s.drop 5 := (List.take_append_drop 5 s).symm
    have hsw5 : ciStartsWith spanLit (s.take 5) = true := by
      have h1' := h1
      rw [hsplit, ciStartsWith_append_split (s.take 5) spanLit (s.drop 5), htk] at h1'
      have htake : spanLit.take 5 = spanLit := List.take_of_length_le (by decide)
      have hdrop : spanLit.drop 5 = ([] : List Char) := List.drop_of_length_le (by decide)
      rw [htake, hdrop] at h1'
      rw [Bool.and_eq_true] at h1'
      exact h1'.1
    refine ⟨s.take 5, seg, hop.symm, htk, hsw5, hgt, hdm, ?_⟩
    rw [hsplit, hdecomp, ← hop]
    simp [List.append_assoc]

theorem openerAt_mk {a5 seg : List Char} (h5 : a5.length = 5)
    (hsw : ciStartsWith spanLit a5 = true) (hgt : '>' ∉ seg)
    (hdm : ciContains dmLit seg = true) (X : List Char) :
    openerAt (a5 ++ (seg ++ '>' :: X)) = some (a5 ++ seg ++ ['>'], X) := by
  have hlen : spanLit.length ≤ a5.length := by rw [h5]; decide
  have hsw2 : ciStartsWith spanLit (a5 ++ (seg ++ '>' :: X)) = true := by
    rw [ciStartsWith_append_left hlen]; exact hsw
  have hdrop : (a5 ++ (seg ++ '>' :: X)).drop 5 = seg ++ '>' :: X := by
    rw [← h5]; exact List.drop_left a5 _
  have htake : (a5 ++ (seg ++ '>' :: X)).take 5 = a5 := by
    rw [← h5]; exact List.take_left a5 _
  unfold openerAt
  rw [if_pos hsw2, hdrop, splitGt_mk hgt X]
  simp only [Option.some_bind]
  rw [if_pos hdm, htake]

theorem openerAt_extend {P : List Char} (hmem : '>' ∈ P.drop 5) (X : List Char) :
    openerAt (P ++ X) = (openerAt P).map (fun pr => (pr.1, pr.2 ++ X)) := by
  have h5 : 5 ≤ P.length := by
    by_contra hlt
    push_neg at hlt
    rw [List.drop_eq_nil_of_le (Nat.le_of_lt hlt)] at hmem
    simp at hmem
  have hd : (P ++ X).drop 5 = P.drop 5 ++ X := by
    rw [List.drop_append_eq_append_drop, Nat.sub_eq_zero_of_le h5, List.drop_zero]
  have ht : (P ++ X).take 5 = P.take 5 := by
    rw [List.take_append_eq_append_take, Nat.sub_eq_zero_of_le h5, List.take_zero,
      List.append_nil]
  have hsw : ciStartsWith spanLit (P ++ X) = ciStartsWith spanLit P :=
    ciStartsWith_append_left (by simpa [spanLit, strL] using h5) X
  obtain ⟨⟨seg, rest⟩, hsg⟩ := Option.isSome_iff_exists.mp (splitGt_isSome hmem)
  obtain ⟨hdecomp, hgt⟩ := splitGt_eq hsg
  have hsg2 : splitGt (P.drop 5 ++ X) = some (seg, rest ++ X) := by
    rw [hdecomp, List.append_assoc, List.cons_append]
    exact splitGt_mk hgt (rest ++ X)
  unfold openerAt
  rw [hd, ht, hsw, hsg, hsg2]
  by_cases hb : ciStartsWith spanLit P = true
  · by_cases hdm : ciContains dmLit seg = true <;> simp [hb, hdm]
  · simp [hb]

theorem closer_head {cl : List Char} (hsw : ciStartsWith spanCloseTag cl = true) :
    ∃ c0 cl', cl = c0 :: cl' ∧ c0.toLower = '<' := by
  cases cl with
  | nil => exact absurd hsw (by decide)
  | cons c0 cl' =>
    have hct : spanCloseTag = '<' :: strL "/span>" := rfl
    rw [hct, ciStartsWith, Bool.and_eq_true] at hsw
    have h1 := hsw.1
    simp only [ciEq, beq_iff_eq] at h1
    refine ⟨c0, cl', rfl, ?_⟩
    rw [← h1]; decide

theorem closer_no_straddle (k : Nat) (c0 : Char) (X : List Char) (h1 : 1 ≤ k)
    (h2 : k < 7) (hc : c0.toLower = '<') :
    ciStartsWith (spanCloseTag.drop k) (c0 :: X) = false := by
  interval_cases k <;>
  · show ciStartsWith (_ :: _) (c0 :: X) = false
    rw [ciStartsWith]
    simp [ciEq, hc]

theorem findCloser_eq : ∀ {s mid cl post : List Char},
    findCloser s = some (mid, cl, post) →
    s = mid ++ cl ++ post ∧ ciStartsWith spanCloseTag cl = true ∧ cl.length = 7 := by
  intro s
  induction s with
  | nil => intro mid cl post h; simp [findCloser] at h
  | cons c cs ih =>
    intro mid cl post h
    by_cases hsw : ciStartsWith spanCloseTag (c :: cs) = true
    · rw [findCloser, if_pos hsw] at h
      simp only [Option.some.injEq, Prod.mk.injEq] at h
      obtain ⟨rfl, rfl, rfl⟩ := h
      have h7 : spanCloseTag.length = 7 := by decide
      have hlen : 7 ≤ (c :: cs).length := h7 ▸ ciStartsWith_length_le hsw
      have htk : ((c :: cs).take 7).length = 7 := by
        rw [List.length_take]
        simp only [List.length_cons] at hlen ⊢
        omega
      have hsplit : (c :: cs) = (c :: cs).take 7 ++ (c :: cs).drop 7 :=
        (List.take_append_drop 7 (c :: cs)).symm
      have hsw7 : ciStartsWith spanCloseTag ((c :: cs).take 7) = true := by
        have h' := hsw
        rw [hsplit,
          ciStartsWith_append_split ((c :: cs).take 7) spanCloseTag ((c :: cs).drop 7),
          htk, List.take_of_length_le (by decide : spanCloseTag.length ≤ 7),
          List.drop_of_length_le (by decide : spanCloseTag.length ≤ 7),
          Bool.and_eq_true] at h'
        exact h'.1
      exact ⟨by simp only [List.nil_append]; exact hsplit, hsw7, htk⟩
    · rw [findCloser, if_neg hsw] at h
      simp only [Option.map_eq_some'] at h
      obtain ⟨⟨mid', cl', post'⟩, hrec, heq⟩ := h
      obtain ⟨hd, hs, hl⟩ := ih hrec
      simp only [Prod.mk.injEq] at heq
      obtain ⟨rfl, rfl, rfl⟩ := heq
      exact ⟨by simp [hd], hs, hl⟩

theorem findCloser_ne_none {cl : List Char} (hsw : ciStartsWith spanCloseTag cl = true) :
    ∀ (A B : List Char), findCloser (A ++ (cl ++ B)) ≠ none := by
  intro A
  induction A with
  | nil =>
    intro B
    cases cl with
    | nil => exact absurd hsw (by decide)
    | cons c0 cl' =>
      have hsw2 : ciStartsWith spanCloseTag ((c0 :: cl') ++ B) = true :=
        ciStartsWith_extend hsw B
      rw [List.nil_append, List.cons_append, findCloser,
        if_pos (by rw [← List.cons_append]; exact hsw2)]
      simp
  | cons a as ih =>
    intro B
    rw [List.cons_append, findCloser]
    by_cases hsw2 : ciStartsWith spanCloseTag (a :: (as ++ (cl ++ B))) = true
    · rw [if_pos hsw2]; simp
    · rw [if_neg hsw2]
      intro hmap
      rw [Option.map_eq_none'] at hmap
      exact ih B hmap

theorem findCloser_append : ∀ {F : List Char} {cl post : List Char},
    ciContains spanCloseTag F = false →
    ciStartsWith spanCloseTag cl = true → cl.length = 7 →
    findCloser (F ++ (cl ++ post)) = some (F, cl, post) := by
  intro F
  induction F with
  | nil =>
    intro cl post _ hsw h7
    cases cl with
    | nil => simp at h7
    | cons c0 cl' =>
      rw [List.nil_append, List.cons_append, findCloser,
        if_pos (by rw [← List.cons_append]; exact ciStartsWith_extend hsw post)]
      rw [← List.cons_append, List.take_left' h7, List.drop_left' h7]
  | cons f fs ih =>
    intro cl post hF hsw h7
    have hFt : ciContains spanCloseTag fs = false := ciContains_false_tail hF
    have hne : ¬ ciStartsWith spanCloseTag (f :: (fs ++ (cl ++ post))) = true := by
      intro hpos
      rcases @ciStartsWith_append_cases spanCloseTag (f :: fs) (cl ++ post)
          (by rw [List.cons_append]; exact hpos) with
        ⟨hle, hstart⟩ | ⟨hlt, hdrop⟩
      · rw [ciContains_of_ciStartsWith hstart] at hF
        exact Bool.true_eq_false.mp hF
      · obtain ⟨c0, cl', rfl, hc0⟩ := closer_head hsw
        rw [List.cons_append] at hdrop
        rw [closer_no_straddle (f :: fs).length c0 (cl' ++ post) (by simp)
          (by rw [show spanCloseTag.length = 7 from by decide] at hlt; exact hlt)
          hc0] at hdrop
        exact Bool.false_eq_true.mp hdrop
    rw [List.cons_append, findCloser, if_neg hne, ih hFt hsw h7]
    rfl

/-! ### Leftmost-match characterization -/

theorem findSpanMatch_eq : ∀ {s : List Char} {m : SpanMatch},
    findSpanMatch s = some m →
    s = m.pre ++ (m.op ++ (m.mid ++ (m.cl ++ m.post))) ∧
    openerAt (m.op ++ (m.mid ++ (m.cl ++ m.post))) =
      some (m.op, m.mid ++ (m.cl ++ m.post)) ∧
    findCloser (m.mid ++ (m.cl ++ m.post)) = some (m.mid, m.cl, m.post) ∧
    (∀ A B, m.pre = A ++ B → B ≠ [] →
      openerAt (B ++ (m.op ++ (m.mid ++ (m.cl ++ m.post)))) = none) := by
  intro s
  induction s with
  | nil => intro m h; simp [findSpanMatch] at h
  | cons c cs ih =>
    intro m h
    rw [findSpanMatch] at h
    cases hop : openerAt (c :: cs) with
    | some pr =>
      obtain ⟨op0, rest0⟩ := pr
      rw [hop] at h
      simp only [Option.some_bind] at h
      cases hfc : findCloser rest0 with
      | some t =>
        obtain ⟨mid0, cl0, post0⟩ := t
        rw [hfc] at h
        simp only [Option.map_some', Option.some_orElse, Option.some.injEq] at h
        subst h
        obtain ⟨hdec0, hswc, h7⟩ := findCloser_eq hfc
        obtain ⟨a5, seg, hopstr, h5, hsw, hgt, hdm, hdecomp⟩ := openerAt_eq hop
        have hrest : mid0 ++ (cl0 ++ post0) = rest0 := by
          rw [hdec0, List.append_assoc]
        constructor
        · show c :: cs = [] ++ (op0 ++ (mid0 ++ (cl0 ++ post0)))
          rw [List.nil_append, hrest]
          exact hdecomp
        refine ⟨?_, ?_, ?_⟩
        · show openerAt (op0 ++ (mid0 ++ (cl0 ++ post0))) =
            some (op0, mid0 ++ (cl0 ++ post0))
          rw [hrest, ← hdecomp]
          exact hop
        · show findCloser (mid0 ++ (cl0 ++ post0)) = some (mid0, cl0, post0)
          rw [hrest]
          exact hfc
        · intro A B hAB hBne
          exact absurd (List.append_eq_nil.mp hAB.symm).2 hBne
      | none =>
        rw [hfc] at h
        simp only [Option.map_none', Option.none_orElse, Option.map_eq_some'] at h
        obtain ⟨m', hm', hupd⟩ := h
        obtain ⟨ih1, ih2, ih3, ih4⟩ := ih hm'
        exfalso
        obtain ⟨a5z, segz, hopstr0, h50, hsw0, hgt0, hdm0, hdecomp0⟩ := openerAt_eq hop
        obtain ⟨a5p, segp, hopstrp, h5p, hswp, hgtp, hdmp, hdecompp⟩ := openerAt_eq ih2
        obtain ⟨hdc, hswc, h7c⟩ := findCloser_eq ih3
        have hX : (a5z ++ segz) ++ '>' :: rest0 = c :: cs := by
          rw [hdecomp0, hopstr0]
          simp [List.append_assoc]
        have hA : ((c :: m'.pre) ++ (a5p ++ segp)) ++
            '>' :: (m'.mid ++ (m'.cl ++ m'.post)) = c :: cs := by
          rw [ih1, hopstrp]
          simp [List.append_assoc]
        have hkey := hX.trans hA.symm
        have hnX : '>' ∉ a5z ++ segz := by
          simp only [List.mem_append, not_or]
          exact ⟨gt_not_mem_of_spanLit hsw0 h50, hgt0⟩
        rcases first_marker_cases (a5z ++ segz) ((c :: m'.pre) ++ (a5p ++ segp))
            rest0 (m'.mid ++ (m'.cl ++ m'.post)) hkey hnX with ⟨hXA, hBC⟩ | ⟨D, hD⟩
        · rw [hBC, ih3] at hfc
          exact Option.some_ne_none _ hfc
        · rw [hD] at hfc
          have : D ++ '>' :: (m'.mid ++ (m'.cl ++ m'.post)) =
              (D ++ '>' :: m'.mid) ++ (m'.cl ++ m'.post) := by
            simp [List.append_assoc]
          rw [this] at hfc
          exact findCloser_ne_none hswc (D ++ '>' :: m'.mid) m'.post hfc
    | none =>
      rw [hop] at h
      simp only [Option.none_bind, Option.none_orElse, Option.map_eq_some'] at h
      obtain ⟨m', hm', hupd⟩ := h
      obtain ⟨ih1, ih2, ih3, ih4⟩ := ih hm'
      subst hupd
      refine ⟨by simp [ih1], ih2, ih3, ?_⟩
      intro A B hAB hBne
      cases A with
      | nil =>
        rw [List.nil_append] at hAB
        rw [← hAB]
        show openerAt ((c :: m'.pre) ++ (m'.op ++ (m'.mid ++ (m'.cl ++ m'.post)))) = none
        rw [List.cons_append, ← ih1]
        exact hop
      | cons a A' =>
        simp only [List.cons_append, List.cons.injEq] at hAB
        exact ih4 A' B hAB.2 hBne

theorem findSpanMatch_mk : ∀ (pre : List Char) {op mid cl post : List Char},
    (∀ A B, pre = A ++ B → B ≠ [] →
      openerAt (B ++ (op ++ (mid ++ (cl ++ post)))) = none) →
    openerAt (op ++ (mid ++ (cl ++ post))) = some (op, mid ++ (cl ++ post)) →
    findCloser (mid ++ (cl ++ post)) = some (mid, cl, post) →
    findSpanMatch (pre ++ (op ++ (mid ++ (cl ++ post)))) =
      some ⟨pre, op, mid, cl, post⟩ := by
  intro pre
  induction pre with
  | nil =>
    intro op mid cl post _ hop hcl
    obtain ⟨a5, seg, hopstr, h5, hsw, hgt, hdm, hdecomp⟩ := openerAt_eq hop
    have hopne : op ≠ [] := by
      rw [hopstr]
      simp
    obtain ⟨o, op', rfl⟩ : ∃ o op', op = o :: op' := by
      cases op with
      | nil => exact absurd rfl hopne
      | cons o op' => exact ⟨o, op', rfl⟩
    rw [List.nil_append, List.cons_append, findSpanMatch, ← List.cons_append, hop]
    simp only [Option.some_bind, hcl, Option.map_some', Option.some_orElse]
  | cons c pre' ih =>
    intro op mid cl post hpre hop hcl
    rw [List.cons_append, findSpanMatch, ← List.cons_append,
      hpre [] (c :: pre') rfl (by simp)]
    simp only [Option.none_bind, Option.none_orElse]
    rw [ih (fun A B hAB hBne => hpre (c :: A) B (by rw [hAB, List.cons_append]) hBne)
      hop hcl]
    simp only [Option.map_some']

/-! ### Substitution lemmas -/

theorem getSubst_no_dollar {L : List Char} (h : '$' ∉ L)
    (m b a : List Char) (caps : List (List Char)) : getSubst m b a caps L = L := by
  induction L with
  | nil => rfl
  | cons c t ih =>
    simp only [List.mem_cons, not_or] at h
    have hc : ¬(c = '$') := fun hc => h.1 hc.symm
    rw [getSubst.eq_def]
    simp [hc, ih h.2]

theorem getSubst_dollar_one {t1 : List Char} (hdn : digitNext t1 = false)
    (m b a c1 c2 : List Char) :
    getSubst m b a [c1, c2] ('$' :: '1' :: t1) =
      c1 ++ getSubst m b a [c1, c2] t1 := by
  rw [getSubst.eq_def]
  simp [hdn, btick, squote]

theorem getSubst_dollar_two {t1 : List Char} (hdn : digitNext t1 = false)
    (m b a c1 c2 : List Char) :
    getSubst m b a [c1, c2] ('$' :: '2' :: t1) =
      c2 ++ getSubst m b a [c1, c2] t1 := by
  rw [getSubst.eq_def]
  simp [hdn, btick, squote]

theorem getSubst_dollar_one_digit {d2 : Char} {t2 : List Char}
    (hd2 : d2.isDigit = true) (m b a c1 c2 : List Char) :
    getSubst m b a [c1, c2] ('$' :: '1' :: d2 :: t2) =
      c1 ++ d2 :: getSubst m b a [c1, c2] t2 := by
  rw [getSubst.eq_def]
  have hb : (2 : Nat) < 10 * ('1'.toNat - 48) + (d2.toNat - 48) := by
    have h1 : '1'.toNat - 48 = 1 := by decide
    rw [h1]; omega
  simp [digitNext, hd2, btick, squote, hb]
  intro hcontra
  exfalso
  omega

theorem getSubst_after {L : List Char} (h : '$' ∉ L) (m b a c1 c2 : List Char) :
    getSubst m b a [c1, c2] (L ++ ['$', '2']) = L ++ c2 := by
  induction L with
  | nil =>
    rw [List.nil_append, List.nil_append, @getSubst_dollar_two [] rfl m b a c1 c2,
      show getSubst m b a [c1, c2] [] = [] from rfl, List.append_nil]
  | cons x L' ih =>
    simp only [List.mem_cons, not_or] at h
    have hx : ¬(x = '$') := fun hc => h.1 hc.symm
    rw [List.cons_append, getSubst.eq_def]
    simp only [hx, if_false, reduceCtorEq, ite_false]
    rw [ih h.2]
    simp

theorem getSubst_template {F : List Char} (h : '$' ∉ F) (m b a c1 c2 : List Char) :
    getSubst m b a [c1, c2] ('$' :: '1' :: (F ++ ['$', '2'])) = c1 ++ (F ++ c2) := by
  cases F with
  | nil =>
    rw [List.nil_append, @getSubst_dollar_one ['$', '2'] (by decide) m b a c1 c2,
      @getSubst_dollar_two [] rfl m b a c1 c2,
      show getSubst m b a [c1, c2] [] = [] from rfl, List.append_nil, List.nil_append]
  | cons f fs =>
    simp only [List.mem_cons, not_or] at h
    by_cases hd : f.isDigit = true
    · rw [List.cons_append, getSubst_dollar_one_digit hd m b a c1 c2,
        getSubst_after h.2 m b a c1 c2]
      simp
    · have hdn : digitNext (f :: (fs ++ ['$', '2'])) = false := by
        simp [digitNext, hd]
      rw [List.cons_append, getSubst_dollar_one hdn m b a c1 c2,
        show f :: (fs ++ ['$', '2']) = (f :: fs) ++ ['$', '2'] from by simp,
        getSubst_after (by simp only [List.mem_cons, not_or]; exact h) m b a c1 c2]

/-! ### Patch-level composition lemmas -/

theorem computeNext_span {s : List Char} {m : SpanMatch} {F : List Char}
    (hm : findSpanMatch s = some m) (hF : '$' ∉ F) (ph : List Char) :
    computeNext ph F s = some (m.pre ++ (m.op ++ (F ++ (m.cl ++ m.post)))) := by
  unfold computeNext
  rw [hm]
  simp only [Option.map_some', Option.some_orElse, Option.some.injEq]
  rw [getSubst_template hF]
  simp [List.append_assoc]

theorem openerAt_none_of_not_start {s : List Char}
    (h : ciStartsWith spanLit s = false) : openerAt s = none := by
  unfold openerAt
  rw [h]
  simp

theorem span_no_straddle (k : Nat) (c0 : Char) (X : List Char) (h1 : 1 ≤ k)
    (h2 : k < 5) (hc : c0.toLower = '<') :
    ciStartsWith (spanLit.drop k) (c0 :: X) = false := by
  interval_cases k <;>
  · show ciStartsWith (_ :: _) (c0 :: X) = false
    rw [ciStartsWith]
    simp [ciEq, hc]

theorem findSpanMatch_none {s : List Char} (h : ciContains spanLit s = false) :
    findSpanMatch s = none := by
  induction s with
  | nil => rfl
  | cons c cs ih =>
    simp only [ciContains, Bool.or_eq_false_iff] at h
    rw [findSpanMatch, openerAt_none_of_not_start h.1, ih h.2]
    rfl

theorem findSpanMatch_roundtrip {s : List Char} {m : SpanMatch} {F : List Char}
    (hm : findSpanMatch s = some m) (hclF : ciContains spanCloseTag F = false) :
    findSpanMatch (m.pre ++ (m.op ++ (F ++ (m.cl ++ m.post)))) =
      some ⟨m.pre, m.op, F, m.cl, m.post⟩ := by
  obtain ⟨hdec, hop, hfc, hpre⟩ := findSpanMatch_eq hm
  obtain ⟨hdc, hswc, h7c⟩ := findCloser_eq hfc
  obtain ⟨a5, seg, hopstr, h5, hsw, hgt, hdm, hopdec⟩ := openerAt_eq hop
  apply findSpanMatch_mk
  · intro A B hAB hBne
    have hold := hpre A B hAB hBne
    have hgtmem : '>' ∈ (B ++ m.op).drop 5 := by
      have hsplit : B ++ m.op = (B ++ a5) ++ (seg ++ ['>']) := by
        rw [hopstr]; simp [List.append_assoc]
      have hlen : 5 ≤ (B ++ a5).length := by
        simp only [List.length_append, h5]; omega
      rw [hsplit, List.drop_append_eq_append_drop, Nat.sub_eq_zero_of_le hlen,
        List.drop_zero]
      exact List.mem_append_right _ (List.mem_append_right _ (by simp))
    have h1 := openerAt_extend hgtmem (m.mid ++ (m.cl ++ m.post))
    have h2 := openerAt_extend hgtmem (F ++ (m.cl ++ m.post))
    rw [show B ++ (m.op ++ (m.mid ++ (m.cl ++ m.post))) =
        (B ++ m.op) ++ (m.mid ++ (m.cl ++ m.post)) from by simp [List.append_assoc],
      h1, Option.map_eq_none'] at hold
    rw [show B ++ (m.op ++ (F ++ (m.cl ++ m.post))) =
        (B ++ m.op) ++ (F ++ (m.cl ++ m.post)) from by simp [List.append_assoc],
      h2, hold]
    rfl
  · rw [hopstr, show ((a5 ++ seg) ++ ['>']) ++ (F ++ (m.cl ++ m.post)) =
        a5 ++ (seg ++ '>' :: (F ++ (m.cl ++ m.post))) from by
          simp [List.append_assoc]]
    exact openerAt_mk h5 hsw hgt hdm (F ++ (m.cl ++ m.post))
  · exact findCloser_append hclF hswc h7c

theorem computeNext_roundtrip {s : List Char} {m : SpanMatch} {F : List Char}
    (hm : findSpanMatch s = some m) (hF : '$' ∉ F)
    (hclF : ciContains spanCloseTag F = false) (ph : List Char) :
    computeNext ph F (m.pre ++ (m.op ++ (F ++ (m.cl ++ m.post)))) =
      some (m.pre ++ (m.op ++ (F ++ (m.cl ++ m.post)))) := by
  have hrt := findSpanMatch_roundtrip hm hclF
  unfold computeNext
  rw [hrt]
  simp only [Option.map_some', Option.some_orElse, Option.some.injEq]
  rw [getSubst_template hF]
  simp [List.append_assoc]

theorem findSpanMatch_after_upgrade {pre post F : List Char}
    (hpre : ciContains spanLit pre = false)
    (hFcl : ciContains spanCloseTag F = false) :
    findSpanMatch (pre ++ (spanOpenTag ++ (F ++ (spanCloseTag ++ post)))) =
      some ⟨pre, spanOpenTag, F, spanCloseTag, post⟩ := by
  apply findSpanMatch_mk
  · intro A B hAB hBne
    apply openerAt_none_of_not_start
    by_contra hpos
    rw [Bool.not_eq_false] at hpos
    rcases @ciStartsWith_append_cases spanLit B
        (spanOpenTag ++ (F ++ (spanCloseTag ++ post))) hpos with
      ⟨hle, hstart⟩ | ⟨hlt, hdrop⟩
    · have hcp : ciContains spanLit pre = true := by
        rw [hAB]
        exact ciContains_append_right A (ciContains_of_ciStartsWith hstart)
      rw [hcp] at hpre
      exact Bool.true_eq_false.mp hpre
    · have hBlen : 1 ≤ B.length := by
        cases B with
        | nil => exact absurd rfl hBne
        | cons x xs => simp
      rw [show spanOpenTag ++ (F ++ (spanCloseTag ++ post)) =
          '<' :: (strL "span data-music>" ++ (F ++ (spanCloseTag ++ post))) from rfl,
        span_no_straddle B.length '<' _ hBlen
          (by rw [show spanLit.length = 5 from by decide] at hlt; exact hlt)
          (by decide)] at hdrop
      exact Bool.false_eq_true.mp hdrop
  · exact openerAt_mk (show (strL "<span").length = 5 by decide)
      (show ciStartsWith spanLit (strL "<span") = true by decide)
      (show '>' ∉ strL " data-music" by decide)
      (show ciContains dmLit (strL " data-music") = true by decide)
      (F ++ (spanCloseTag ++ post))
  · exact findCloser_append hFcl (by decide) (by decide)

/-- JS `String.prototype.includes` on character lists. -/
def includesSub (p s : List Char) : Bool := (splitFirst p s).isSome

theorem includesSub_self_append (p rest : List Char) :
    includesSub p (p ++ rest) = true := by
  unfold includesSub
  cases hpr : p ++ rest with
  | nil =>
    obtain ⟨hp, hr⟩ := List.append_eq_nil.mp hpr
    subst hp
    simp [splitFirst]
  | cons c cs =>
    rw [splitFirst, if_pos (List.isPrefixOf_iff_prefix.mpr ⟨rest, hpr⟩)]
    simp

theorem includesSub_append_right {p B : List Char} (A : List Char)
    (h : includesSub p B = true) : includesSub p (A ++ B) = true := by
  induction A with
  | nil => simpa
  | cons a as ih =>
    unfold includesSub at ih ⊢
    rw [List.cons_append, splitFirst]
    by_cases hp : p.isPrefixOf (a :: (as ++ B)) = true
    · rw [if_pos hp]
      simp
    · rw [if_neg hp]
      cases hsf : splitFirst p (as ++ B) with
      | none => rw [hsf] at ih; simp at ih
      | some q => simp

/-! ### Claims -/

/-- C1: idempotence-with-expiry law of the change decision engine: when the
status and the cached status agree on title, artist, album, artwork and live
flag and the cached timestamp parses, `shouldUpdate` returns false while the
elapsed wall-clock time is at most the TTL, and returns true as soon as the
elapsed time strictly exceeds the TTL, even with no content change. -/
theorem C1_shouldUpdate_idempotence_with_expiry
    (parseDate : String → Option Int) (now ttl last : Int)
    (track : TrackInfo) (c : CacheEntry)
    (ht : c.title = track.title) (ha : c.artist = track.artist)
    (hal : c.album = track.album) (hart : c.albumArt = track.albumArt)
    (hnp : c.nowPlaying = track.nowPlaying)
    (hp : parseDate c.lastUpdatedIso = some last) :
    (now - last ≤ ttl → shouldUpdate parseDate now ttl track (some c) = false) ∧
    (ttl < now - last → shouldUpdate parseDate now ttl track (some c) = true) := by
  simp only [shouldUpdate]
  rw [if_neg (by simp [ht, ha, hal, hart, hnp]), hp]
  refine ⟨fun h => ?_, fun h => ?_⟩
  · show decide (now - last > ttl) = false
    rw [decide_eq_false_iff_not]
    omega
  · show decide (now - last > ttl) = true
    rw [decide_eq_true_eq]
    omega

/-- Witness for C1: five fields equal, timestamp parsing to 0; at clock 5
with TTL 10 no update, at clock 20 an update. -/
theorem C1_witness :
    shouldUpdate (fun _ => some 0) 5 10
      ⟨strL "t", strL "a", none, none, false, 0⟩
      (some ⟨strL "t", strL "a", none, none, false, "iso"⟩) = false ∧
    shouldUpdate (fun _ => some 0) 20 10
      ⟨strL "t", strL "a", none, none, false, 0⟩
      (some ⟨strL "t", strL "a", none, none, false, "iso"⟩) = true :=
  ⟨(C1_shouldUpdate_idempotence_with_expiry (fun _ => some 0) 5 10 0 _ _
      rfl rfl rfl rfl rfl rfl).1 (by norm_num),
   (C1_shouldUpdate_idempotence_with_expiry (fun _ => some 0) 20 10 0 _ _
      rfl rfl rfl rfl rfl rfl).2 (by norm_num)⟩

/-- C7: `shouldUpdate` short-circuit rules: no cache present gives true; any
difference in the five compared fields gives true regardless of timing; an
unparseable cached timestamp gives true. -/
theorem C7_shouldUpdate_short_circuit (parseDate : String → Option Int)
    (now ttl : Int) (track : TrackInfo) :
    shouldUpdate parseDate now ttl track none = true ∧
    (∀ c : CacheEntry,
      (c.title ≠ track.title ∨ c.artist ≠ track.artist ∨ c.album ≠ track.album ∨
        c.albumArt ≠ track.albumArt ∨ c.nowPlaying ≠ track.nowPlaying) →
      shouldUpdate parseDate now ttl track (some c) = true) ∧
    (∀ c : CacheEntry, parseDate c.lastUpdatedIso = none →
      shouldUpdate parseDate now ttl track (some c) = true) := by
  refine ⟨rfl, fun c hdiff => ?_, fun c hp => ?_⟩
  · simp only [shouldUpdate]
    rw [if_pos hdiff]
  · simp only [shouldUpdate]
    by_cases hdiff : c.title ≠ track.title ∨ c.artist ≠ track.artist ∨
        c.album ≠ track.album ∨ c.albumArt ≠ track.albumArt ∨
        c.nowPlaying ≠ track.nowPlaying
    · rw [if_pos hdiff]
    · rw [if_neg hdiff, hp]

/-- Witness for C7: an empty cache, a title difference, and an unparseable
timestamp each force an update. -/
theorem C7_witness :
    shouldUpdate (fun _ => some 0) 0 10
      ⟨strL "t", strL "a", none, none, false, 0⟩ none = true ∧
    shouldUpdate (fun _ => some 0) 0 10
      ⟨strL "t", strL "a", none, none, false, 0⟩
      (some ⟨strL "u", strL "a", none, none, false, "iso"⟩) = true ∧
    shouldUpdate (fun _ => none) 0 10
      ⟨strL "t", strL "a", none, none, false, 0⟩
      (some ⟨strL "t", strL "a", none, none, false, "bad"⟩) = true :=
  ⟨(C7_shouldUpdate_short_circuit _ 0 10 _).1,
   (C7_shouldUpdate_short_circuit _ 0 10 _).2.1 _ (Or.inl (by decide)),
   (C7_shouldUpdate_short_circuit _ 0 10 _).2.2 _ rfl⟩

/-- C8: relative-time label tiers over elapsed whole seconds (floor
division): under 60 seconds "just now", under an hour "N minutes ago",
under 24 hours "N hours ago", otherwise "N days ago"; no pluralization. -/
theorem C8_getTimeAgo_tiers (now ts : Int) :
    ((now - ts).fdiv 1000 < 60 → getTimeAgo now ts = strL "just now") ∧
    (60 ≤ (now - ts).fdiv 1000 → (now - ts).fdiv 1000 < 3600 →
      getTimeAgo now ts =
        (toString (((now - ts).fdiv 1000).fdiv 60)).data ++ strL " minutes ago") ∧
    (3600 ≤ (now - ts).fdiv 1000 → (now - ts).fdiv 1000 < 86400 →
      getTimeAgo now ts =
        (toString (((now - ts).fdiv 1000).fdiv 3600)).data ++ strL " hours ago") ∧
    (86400 ≤ (now - ts).fdiv 1000 →
      getTimeAgo now ts =
        (toString (((now - ts).fdiv 1000).fdiv 86400)).data ++ strL " days ago") := by
  simp only [getTimeAgo]
  refine ⟨fun h1 => ?_, fun h1 h2 => ?_, fun h1 h2 => ?_, fun h1 => ?_⟩
  · rw [if_pos h1]
  · rw [if_neg (by omega), if_pos h2]
  · rw [if_neg (by omega), if_neg (by omega), if_pos h2]
  · rw [if_neg (by omega), if_neg (by omega), if_neg (by omega)]

/-- Witness for C8: exactly one minute yields the unpluralized
"1 minutes ago", and one millisecond less still yields "just now". -/
theorem C8_witness :
    getTimeAgo 60000 0 = strL "1 minutes ago" ∧
    getTimeAgo 59999 0 = strL "just now" :=
  ⟨((C8_getTimeAgo_tiers 60000 0).2.1 (by decide) (by decide)).trans (by decide),
   (C8_getTimeAgo_tiers 59999 0).1 (by decide)⟩

/-- C9: rendering-branch asymmetry: without artwork the output is the
reduced text-only block with just title and artist (album and time dropped);
with artwork the output is the fixed-size image element followed by title,
artist, album when present, and the time or now-playing line. -/
theorem C9_formatTrack_branches (now : Int) (t : TrackInfo) :
    (truthy t.albumArt = false →
      formatTrack now t =
        strL "<samp><strong>" ++ t.title ++ strL "</strong><br/>by " ++ t.artist ++
          strL "</samp>") ∧
    (truthy t.albumArt = true →
      formatTrack now t =
        strL "<img src=\"" ++ t.albumArt.getD [] ++
          strL "\" alt=\"\" width=\"128\" height=\"128\" align=\"left\" /><samp>" ++
          List.intercalate (strL "<br/>")
            ((([strL "<strong>" ++ t.title ++ strL "</strong>",
                strL "by " ++ t.artist] ++
               (if truthy t.album then [strL "from " ++ t.album.getD []] else [])) ++
              [[]]) ++
              [if t.nowPlaying then strL "<em>now playing</em>"
               else getTimeAgo now t.playedAt]) ++
          strL "</samp>") := by
  constructor
  · intro h
    simp [formatTrack, h]
  · intro h
    by_cases hal : truthy t.album = true
    · simp [formatTrack, h, hal]
    · simp [formatTrack, h, hal]

/-- Witness for C9: both branches at concrete statuses. -/
theorem C9_witness :
    formatTrack 0 ⟨strL "T", strL "A", some (strL "Al"), none, false, 0⟩ =
      strL "<samp><strong>T</strong><br/>by A</samp>" ∧
    formatTrack 1000 ⟨strL "T", strL "A", some (strL "Al"), some (strL "u"), true, 0⟩ =
      strL "<img src=\"u\" alt=\"\" width=\"128\" height=\"128\" align=\"left\" /><samp><strong>T</strong><br/>by A<br/>from Al<br/><br/><em>now playing</em></samp>" :=
  ⟨((C9_formatTrack_branches 0
      ⟨strL "T", strL "A", some (strL "Al"), none, false, 0⟩).1 rfl).trans (by decide),
   ((C9_formatTrack_branches 1000
      ⟨strL "T", strL "A", some (strL "Al"), some (strL "u"), true, 0⟩).2 rfl).trans
     (by decide)⟩

/-- C4 (amended): for every live status whose artwork is present, the
rendered markup contains the fixed now-playing marker and is independent of
the clock (so no computed time-ago string takes its place); the restriction
to artwork-present statuses is forced by the counterexample, since the
no-artwork branch drops the time/now-playing line entirely. -/
theorem C4_nowplaying_marker (now1 now2 : Int) (t : TrackInfo)
    (hart : truthy t.albumArt = true) (hlive : t.nowPlaying = true) :
    includesSub (strL "<em>now playing</em>") (formatTrack now1 t) = true ∧
    formatTrack now1 t = formatTrack now2 t := by
  constructor
  · by_cases hal : truthy t.album = true
    · simp only [formatTrack, hart, if_true, hal, hlive, List.intercalate,
        List.intersperse, List.flatten_cons, List.flatten_nil, List.append_assoc,
        List.append_nil, List.nil_append]
      repeat first
      | exact includesSub_self_append _ _
      | apply includesSub_append_right
    · simp only [formatTrack, hart, if_true, hal, if_false, hlive,
        List.intercalate, List.intersperse, List.flatten_cons, List.flatten_nil,
        List.append_assoc, List.append_nil, List.nil_append]
      repeat first
      | exact includesSub_self_append _ _
      | apply includesSub_append_right
  · simp [formatTrack, hart, hlive]

/-- Witness for C4 at the spec's scenario status. -/
theorem C4_witness :
    includesSub (strL "<em>now playing</em>")
      (formatTrack 0 ⟨strL "Song A", strL "Artist X", none,
        some (strL "https://x/a.jpg"), true, 0⟩) = true ∧
    formatTrack 0 ⟨strL "Song A", strL "Artist X", none,
        some (strL "https://x/a.jpg"), true, 0⟩ =
      formatTrack 99999999 ⟨strL "Song A", strL "Artist X", none,
        some (strL "https://x/a.jpg"), true, 0⟩ :=
  C4_nowplaying_marker 0 99999999
    ⟨strL "Song A", strL "Artist X", none, some (strL "https://x/a.jpg"), true, 0⟩
    rfl rfl

/-- C4 counterexample: a live status without artwork renders as the reduced
text block, which does not contain the now-playing marker. -/
theorem C4_counterexample :
    formatTrack 0 ⟨strL "a", strL "b", none, none, true, 0⟩ =
      strL "<samp><strong>a</strong><br/>by b</samp>" ∧
    includesSub (strL "<em>now playing</em>")
      (formatTrack 0 ⟨strL "a", strL "b", none, none, true, 0⟩) = false :=
  ⟨by decide, by decide⟩

/-- C10: when the provider's most-recent track record carries no played-at
date, the fetched status's playedAt is the fetch wall-clock time itself, and
any render within the following minute labels it "just now". -/
theorem C10_playedAt_fallback (parseNum : List Char → Int) (now : Int)
    (recent : LastFmTrack) (hdate : recent.date = none) :
    (fetchRecentTrack parseNum now recent).playedAt = now ∧
    (∀ rnow : Int, rnow - now < 60000 →
      getTimeAgo rnow (fetchRecentTrack parseNum now recent).playedAt =
        strL "just now") := by
  have hp : (fetchRecentTrack parseNum now recent).playedAt = now := by
    simp [fetchRecentTrack, hdate]
  refine ⟨hp, fun rnow hr => ?_⟩
  rw [hp]
  have hlt : (rnow - now).fdiv 1000 < 60 := by
    rw [Int.fdiv_eq_ediv _ (by norm_num)]
    rw [Int.ediv_lt_iff_lt_mul (by norm_num)]
    omega
  exact (C8_getTimeAgo_tiers rnow now).1 hlt

/-- Witness for C10 at a concrete record with no date field. -/
theorem C10_witness :
    (fetchRecentTrack (fun _ => 0) 1700000000000
      ⟨some (strL "Song"), some (strL "Artist"), none, none, none,
        some ⟨some (strL "true")⟩⟩).playedAt = 1700000000000 ∧
    getTimeAgo 1700000000000
      (fetchRecentTrack (fun _ => 0) 1700000000000
        ⟨some (strL "Song"), some (strL "Artist"), none, none, none,
          some ⟨some (strL "true")⟩⟩).playedAt = strL "just now" :=
  ⟨(C10_playedAt_fallback (fun _ => 0) 1700000000000
      ⟨some (strL "Song"), some (strL "Artist"), none, none, none,
        some ⟨some (strL "true")⟩⟩ rfl).1,
   (C10_playedAt_fallback (fun _ => 0) 1700000000000
      ⟨some (strL "Song"), some (strL "Artist"), none, none, none,
        some ⟨some (strL "true")⟩⟩ rfl).2 1700000000000 (by norm_num)⟩

/-- Classification of `updateReadme` outcomes by target presence, change
detection and PUT acceptance. -/
theorem updateReadme_spec (ph : List Char) (track : TrackInfo) (now : Int)
    (doc : RemoteDoc) (putOk : Bool) :
    (computeNext ph (formatTrack now track) doc.content = none ∧
      updateReadme ph track now doc putOk = .noTarget) ∨
    (∃ next, computeNext ph (formatTrack now track) doc.content = some next ∧
      ((next = doc.content ∧ updateReadme ph track now doc putOk = .noChange) ∨
       (next ≠ doc.content ∧ putOk = true ∧
         updateReadme ph track now doc putOk = .written doc.sha next) ∨
       (next ≠ doc.content ∧ putOk = false ∧
         updateReadme ph track now doc putOk = .putRejected doc.sha))) := by
  cases hcn : computeNext ph (formatTrack now track) doc.content with
  | none =>
    refine Or.inl ⟨rfl, ?_⟩
    unfold updateReadme
    dsimp only
    rw [hcn]
  | some next =>
    refine Or.inr ⟨next, rfl, ?_⟩
    by_cases he : next = doc.content
    · refine Or.inl ⟨he, ?_⟩
      unfold updateReadme
      dsimp only
      rw [hcn]
      simp [he]
    · cases putOk with
      | true =>
        refine Or.inr (Or.inl ⟨he, rfl, ?_⟩)
        unfold updateReadme
        dsimp only
        rw [hcn]
        simp [he]
      | false =>
        refine Or.inr (Or.inr ⟨he, rfl, ?_⟩)
        unfold updateReadme
        dsimp only
        rw [hcn]
        simp [he]

/-- C3: optimistic-concurrency atomicity: every PUT the patcher issues
carries the revision token obtained from the preceding fetch, at most one
PUT is issued per cycle (no retry), and when the host rejects the write the
cycle ends in a thrown error with the status cache left untouched. -/
theorem C3_optimistic_concurrency (parseDate : String → Option Int)
    (ph : List Char) (now : Int) (nowIso : String) (ttl : Int)
    (track : TrackInfo) (cache : Option CacheEntry) (doc : RemoteDoc) :
    (∀ putOk : Bool, ∀ s ∈ putsOf (updateReadme ph track now doc putOk),
      s = doc.sha) ∧
    (∀ putOk : Bool, (putsOf (updateReadme ph track now doc putOk)).length ≤ 1) ∧
    ((tick parseDate ph now nowIso ttl (some track) cache doc false).cache =
      cache) ∧
    (shouldUpdate parseDate now ttl track cache = true →
      updateReadme ph track now doc false = .putRejected doc.sha →
      tick parseDate ph now nowIso ttl (some track) cache doc false =
        ⟨cache, some (.putRejected doc.sha), true⟩) := by
  refine ⟨?_, ?_, ?_, ?_⟩
  · intro putOk s hs
    rcases updateReadme_spec ph track now doc putOk with ⟨_, hr⟩ |
      ⟨next, _, ⟨_, hr⟩ | ⟨_, _, hr⟩ | ⟨_, _, hr⟩⟩ <;>
      rw [hr] at hs <;> simp [putsOf] at hs <;> try exact hs
  · intro putOk
    rcases updateReadme_spec ph track now doc putOk with ⟨_, hr⟩ |
      ⟨next, _, ⟨_, hr⟩ | ⟨_, _, hr⟩ | ⟨_, _, hr⟩⟩ <;>
      rw [hr] <;> simp [putsOf]
  · by_cases hsu : shouldUpdate parseDate now ttl track cache = true
    · rcases updateReadme_spec ph track now doc false with ⟨_, hr⟩ |
        ⟨next, _, ⟨_, hr⟩ | ⟨_, hpo, hr⟩ | ⟨_, _, hr⟩⟩
      · simp [tick, hsu, hr]
      · simp [tick, hsu, hr]
      · exact absurd hpo (by simp)
      · simp [tick, hsu, hr]
    · simp [tick, hsu]
  · intro hsu hur
    simp [tick, hsu, hur]

/-- Witness for C3: a rejected PUT at a concrete document leaves the cache
unchanged and fails the cycle. -/
theorem C3_witness :
    tick (fun _ => none) (strL "%music%") 5 "iso" 10
      (some ⟨strL "t", strL "a", none, none, false, 0⟩) none
      ⟨strL "A<span data-music>x</span>B", "sha1"⟩ false =
      ⟨none, some (.putRejected "sha1"), true⟩ :=
  (C3_optimistic_concurrency (fun _ => none) (strL "%music%") 5 "iso" 10
    ⟨strL "t", strL "a", none, none, false, 0⟩ none
    ⟨strL "A<span data-music>x</span>B", "sha1"⟩).2.2.2 rfl (by decide)

/-- C2 (amended): no-op detection: whenever the textual patch leaves the
document byte-identical, the patcher reports no write and issues no PUT;
and the round-trip law holds for rendered content containing no dollar sign
and no case-insensitive "</span>" substring: patching a document with a
tagged region and then patching the result again with the same rendered
content is a no-op (the counterexample shows the unrestricted law fails). -/
theorem C2_noop_detection :
    (∀ (ph : List Char) (track : TrackInfo) (now : Int) (doc : RemoteDoc)
        (putOk : Bool) (next : List Char),
      computeNext ph (formatTrack now track) doc.content = some next →
      next = doc.content →
      updateReadme ph track now doc putOk = .noChange ∧
        putsOf (updateReadme ph track now doc putOk) = []) ∧
    (∀ (ph : List Char) (track : TrackInfo) (now : Int) (doc : RemoteDoc)
        (m : SpanMatch) (next1 : List Char) (sha2 : String) (putOk2 : Bool),
      findSpanMatch doc.content = some m →
      '$' ∉ formatTrack now track →
      ciContains spanCloseTag (formatTrack now track) = false →
      computeNext ph (formatTrack now track) doc.content = some next1 →
      updateReadme ph track now ⟨next1, sha2⟩ putOk2 = .noChange) := by
  constructor
  · intro ph track now doc putOk next hcn he
    have hnc : updateReadme ph track now doc putOk = .noChange := by
      unfold updateReadme
      dsimp only
      rw [hcn]
      simp [he]
    exact ⟨hnc, by rw [hnc]; rfl⟩
  · intro ph track now doc m next1 sha2 putOk2 hm hF hcl hcn
    have hnext : next1 =
        m.pre ++ (m.op ++ (formatTrack now track ++ (m.cl ++ m.post))) :=
      Option.some_injective _ (hcn.symm.trans (computeNext_span hm hF ph))
    have h2 := computeNext_roundtrip hm hF hcl ph
    unfold updateReadme
    dsimp only
    rw [hnext, h2]
    simp

/-- Witness for C2: a document already holding the rendered content is
patched again without a write. -/
theorem C2_witness :
    updateReadme (strL "%music%") ⟨strL "t", strL "a", none, none, false, 0⟩ 0
      ⟨strL "A<span data-music><samp><strong>t</strong><br/>by a</samp></span>B",
        "sha2"⟩ true = .noChange :=
  C2_noop_detection.2 (strL "%music%") ⟨strL "t", strL "a", none, none, false, 0⟩ 0
    ⟨strL "A<span data-music>x</span>B", "sha1"⟩
    ⟨strL "A", strL "<span data-music>", strL "x", strL "</span>", strL "B"⟩
    (strL "A<span data-music><samp><strong>t</strong><br/>by a</samp></span>B")
    "sha2" true (by decide) (by decide) (by decide) (by decide)

/-- C2 counterexample: a title containing "</span>" makes the second patch
with unchanged rendered content issue another remote write. -/
theorem C2_counterexample :
    updateReadme (strL "%music%")
        ⟨strL "t</span>u", strL "b", none, none, false, 0⟩ 0
        ⟨strL "A<span data-music>x</span>B", "sha1"⟩ true =
      .written "sha1"
        (strL "A<span data-music><samp><strong>t</span>u</strong><br/>by b</samp></span>B") ∧
    updateReadme (strL "%music%")
        ⟨strL "t</span>u", strL "b", none, none, false, 0⟩ 0
        ⟨strL "A<span data-music><samp><strong>t</span>u</strong><br/>by b</samp></span>B",
          "sha2"⟩ true =
      .written "sha2"
        (strL "A<span data-music><samp><strong>t</span>u</strong><br/>by b</samp></span>u</strong><br/>by b</samp></span>B") :=
  ⟨by decide, by decide⟩

/-- C5 (amended): frame property of the tagged-region patch: for rendered
content containing no dollar sign, the patched document is exactly the
original with only the region strictly between the markers replaced by the
rendered content; the markers and every byte outside the match are intact
(the counterexample shows JS `$`-substitution breaks the unrestricted law). -/
theorem C5_frame_property (ph : List Char) (now : Int) (track : TrackInfo)
    {s : List Char} {m : SpanMatch} (hm : findSpanMatch s = some m)
    (hF : '$' ∉ formatTrack now track) :
    s = m.pre ++ (m.op ++ (m.mid ++ (m.cl ++ m.post))) ∧
    computeNext ph (formatTrack now track) s =
      some (m.pre ++ (m.op ++ (formatTrack now track ++ (m.cl ++ m.post)))) :=
  ⟨(findSpanMatch_eq hm).1, computeNext_span hm hF ph⟩

/-- Witness for C5 at a concrete document and status. -/
theorem C5_witness :
    strL "A<span data-music>x</span>B" =
      strL "A" ++ (strL "<span data-music>" ++
        (strL "x" ++ (strL "</span>" ++ strL "B"))) ∧
    computeNext (strL "%music%")
        (formatTrack 0 ⟨strL "t", strL "a", none, none, false, 0⟩)
        (strL "A<span data-music>x</span>B") =
      some (strL "A" ++ (strL "<span data-music>" ++
        (formatTrack 0 ⟨strL "t", strL "a", none, none, false, 0⟩ ++
          (strL "</span>" ++ strL "B")))) :=
  C5_frame_property (strL "%music%") 0 ⟨strL "t", strL "a", none, none, false, 0⟩
    (show findSpanMatch (strL "A<span data-music>x</span>B") =
      some ⟨strL "A", strL "<span data-music>", strL "x", strL "</span>", strL "B"⟩
      from by decide)
    (by decide)

/-- C5 counterexample: a title containing the replacement pattern "$&" makes
the inserted region differ from the rendered content (the matched text is
spliced in). -/
theorem C5_counterexample :
    computeNext (strL "%music%")
        (formatTrack 0 ⟨strL "$&", strL "b", none, none, false, 0⟩)
        (strL "A<span data-music>x</span>B") =
      some (strL "A<span data-music><samp><strong><span data-music>x</span></strong><br/>by b</samp></span>B") ∧
    strL "A<span data-music><samp><strong><span data-music>x</span></strong><br/>by b</samp></span>B" ≠
      strL "A" ++ (strL "<span data-music>" ++
        (formatTrack 0 ⟨strL "$&", strL "b", none, none, false, 0⟩ ++
          (strL "</span>" ++ strL "B"))) :=
  ⟨by decide, by decide⟩

/-- C6 (amended): placeholder upgrade path: for a document containing the
placeholder, no tagged region and no case-insensitive "<span" occurrence at
all, one patch replaces the first placeholder occurrence with the markers
wrapping the rendered content, and a subsequent patch with unchanged
rendered content (no dollar sign, no "</span>") matches the tagged region
and is a no-op; the counterexample shows a dangling opener in the document
breaks the unrestricted law. -/
theorem C6_placeholder_upgrade (ph : List Char) (now : Int) (track : TrackInfo)
    {s pre post : List Char}
    (hsplit : splitFirst ph s = some (pre, post))
    (hnospan : ciContains spanLit s = false)
    (hF : '$' ∉ formatTrack now track)
    (hFcl : ciContains spanCloseTag (formatTrack now track) = false) :
    computeNext ph (formatTrack now track) s =
      some (pre ++ (spanOpenTag ++
        (formatTrack now track ++ (spanCloseTag ++ post)))) ∧
    (∀ (sha2 : String) (putOk2 : Bool),
      updateReadme ph track now
        ⟨pre ++ (spanOpenTag ++ (formatTrack now track ++ (spanCloseTag ++ post))),
          sha2⟩ putOk2 = .noChange) := by
  have hnone := findSpanMatch_none hnospan
  have hdollar : '$' ∉ spanOpenTag ++ formatTrack now track ++ spanCloseTag := by
    simp only [List.mem_append, not_or]
    exact ⟨⟨by decide, hF⟩, by decide⟩
  have h1 : computeNext ph (formatTrack now track) s =
      some (pre ++ (spanOpenTag ++
        (formatTrack now track ++ (spanCloseTag ++ post)))) := by
    unfold computeNext
    rw [hnone, hsplit]
    simp only [Option.map_none', Option.none_orElse, Option.map_some',
      Option.some.injEq]
    rw [getSubst_no_dollar hdollar]
    simp [List.append_assoc]
  refine ⟨h1, fun sha2 putOk2 => ?_⟩
  have hpre : ciContains spanLit pre = false := by
    by_contra hc
    rw [Bool.not_eq_false] at hc
    have hcs : ciContains spanLit s = true := by
      rw [splitFirst_eq hsplit]
      exact ciContains_append_left _ _ (ciContains_append_left _ _ hc)
    rw [hcs] at hnospan
    exact Bool.true_eq_false.mp hnospan
  have hrt := @findSpanMatch_after_upgrade pre post (formatTrack now track)
    hpre hFcl
  have h2 : computeNext ph (formatTrack now track)
      (pre ++ (spanOpenTag ++ (formatTrack now track ++ (spanCloseTag ++ post)))) =
      some (pre ++ (spanOpenTag ++
        (formatTrack now track ++ (spanCloseTag ++ post)))) := by
    unfold computeNext
    rw [hrt]
    simp only [Option.map_some', Option.some_orElse, Option.some.injEq]
    rw [getSubst_template hF]
    simp [List.append_assoc]
  unfold updateReadme
  dsimp only
  rw [h2]
  simp

/-- Witness for C6: upgrading a plain placeholder document, then patching
the upgraded document again, performs no second write. -/
theorem C6_witness :
    computeNext (strL "%music%")
        (formatTrack 0 ⟨strL "t", strL "a", none, none, false, 0⟩)
        (strL "hello %music% world") =
      some (strL "hello " ++ (spanOpenTag ++
        (formatTrack 0 ⟨strL "t", strL "a", none, none, false, 0⟩ ++
          (spanCloseTag ++ strL " world")))) ∧
    updateReadme (strL "%music%") ⟨strL "t", strL "a", none, none, false, 0⟩ 0
      ⟨strL "hello " ++ (spanOpenTag ++
        (formatTrack 0 ⟨strL "t", strL "a", none, none, false, 0⟩ ++
          (spanCloseTag ++ strL " world"))), "sha2"⟩ true = .noChange := by
  have h := C6_placeholder_upgrade (strL "%music%") 0
    ⟨strL "t", strL "a", none, none, false, 0⟩
    (show splitFirst (strL "%music%") (strL "hello %music% world") =
      some (strL "hello ", strL " world") from by decide)
    (by decide) (by decide) (by decide)
  exact ⟨h.1, h.2 "sha2" true⟩

/-- C6 counterexample: a document with a dangling opener before the
placeholder: the first patch still wraps the placeholder, but the second
patch matches from the dangling opener and issues another remote write. -/
theorem C6_counterexample :
    computeNext (strL "%music%")
        (formatTrack 0 ⟨strL "a", strL "b", none, none, false, 0⟩)
        (strL "<span data-music>%music%") =
      some (strL "<span data-music><span data-music><samp><strong>a</strong><br/>by b</samp></span>") ∧
    updateReadme (strL "%music%") ⟨strL "a", strL "b", none, none, false, 0⟩ 0
        ⟨strL "<span data-music><span data-music><samp><strong>a</strong><br/>by b</samp></span>",
          "sha2"⟩ true =
      .written "sha2"
        (strL "<span data-music><samp><strong>a</strong><br/>by b</samp></span>") :=
  ⟨by decide, by decide⟩
